import Mathlib

/-!
Verification of the version model of the `overlay_tools` package
(`overlay_tools/core/versions.py`): parsing of Gentoo-style version
strings, translation to PEP 440 form, the three-way comparator
`compare_versions`, upstream tag normalization, and their ordering
properties.

Modelling conventions:
* Python strings are modelled as `List Char` internally; the public
  API mirrors the Python functions over `String`.
* Python functions that raise (`parse_gentoo_version`,
  `normalize_gentoo_version`, `packaging.version.parse`) are modelled
  with `Option`; `try/except` blocks become `match` on the options,
  following the exact control flow of `compare_versions`.
* The regular expressions of the source (`GENTOO_VERSION_RE`,
  `STABLE_SUFFIX_RE`, `V_PREFIX_RE`, and the pre-parse rewrites) are
  embedded as deterministic parsers that agree with the Python regex
  semantics on the anchored grammars in question.  Two approximations
  are recorded here: the character classes `\d`, `[a-z]`, `\s` are
  modelled over ASCII (Python's unicode-aware classes coincide with
  these on all ASCII input), and the terminal anchor `$` is modelled
  as end-of-string (Python additionally lets `$` match just before a
  single trailing newline).
* The external `packaging.version` library (not part of this
  repository) is modelled from its published specification, PEP 440:
  the version grammar `v? (N!)? N(.N)* pre? post? dev? (+local)?`
  with separators `[-_.]`, case-insensitive spellings
  (`alpha|a|b|beta|c|pre|preview|rc` for pre-releases, `post|rev|r`
  for post-releases, `dev` for dev-releases, `-N` as a bare post
  form), and the comparison key
  `(epoch, release without trailing zeros, pre-key, post-key,
   dev-key, local-key)` with dev-only releases below every
  pre-release and plain releases above all of them.  Modern
  `packaging` (>= 22) raises `InvalidVersion` on any string that
  does not match this grammar, which `compare_versions` catches.
* The rewrite rules passed to `upstream_to_gentoo` are applied by
  Python with `re.sub`; substitution is modelled for literal
  (metacharacter-free) patterns and replacements, which is the case
  exercised by every statement below, including `re.sub`'s global
  (all non-overlapping occurrences) behaviour and its empty-pattern
  behaviour.
-/

namespace OverlayTools

/-! ## Character and digit utilities -/

/-- ASCII decimal digit, the `\d` class on ASCII input. -/
def isDigitCh (c : Char) : Bool := 48 ≤ c.toNat && c.toNat ≤ 57

/-- ASCII lowercase letter, the `[a-z]` class of `GENTOO_VERSION_RE`. -/
def isLowerCh (c : Char) : Bool := 97 ≤ c.toNat && c.toNat ≤ 122

/-- ASCII whitespace, the `\s` class (and `str.strip`) on ASCII input. -/
def isSpaceCh (c : Char) : Bool := c.toNat == 32 || (9 ≤ c.toNat && c.toNat ≤ 13)

/-- The separator class `[-_.]` used throughout the PEP 440 grammar. -/
def isSepCh (c : Char) : Bool := c == '-' || c == '_' || c == '.'

/-- ASCII letter or digit, the `[a-z0-9]` class (case-insensitive) of
PEP 440 local segments. -/
def isAlnumCh (c : Char) : Bool :=
  isDigitCh c || isLowerCh c || (65 ≤ c.toNat && c.toNat ≤ 90)

/-- Numeric value of a decimal digit character. -/
def digitVal (c : Char) : Nat := c.toNat - 48

/-- Python `int()` on a string of decimal digits (leading zeros allowed). -/
def digitsVal (l : List Char) : Nat := l.foldl (fun a c => 10 * a + digitVal c) 0

/-- Fuelled base-10 printer; with fuel at least `n` it renders `n`
without leading zeros.  (The fuel only serves structural recursion.) -/
def natReprCore : Nat → Nat → List Char
  | _, 0 => []
  | 0, _ + 1 => []
  | fuel + 1, n + 1 =>
    natReprCore fuel ((n + 1) / 10) ++ [Nat.digitChar ((n + 1) % 10)]

/-- Python `str()` of a non-negative integer. -/
def natRepr (n : Nat) : List Char := if n = 0 then ['0'] else natReprCore n n

/-- Take the maximal leading run of decimal digits (`\d+`, greedy). -/
def takeDigits : List Char → List Char × List Char
  | [] => ([], [])
  | c :: r =>
    if isDigitCh c then
      let p := takeDigits r
      (c :: p.1, p.2)
    else ([], c :: r)

/-- Match a literal word at the head of the input, returning the rest. -/
def matchLit : List Char → List Char → Option (List Char)
  | [], s => some s
  | _ :: _, [] => none
  | p :: ps, c :: cs => if c = p then matchLit ps cs else none

/-- Match a literal lowercase word case-insensitively (PEP 440 spellings
are matched with `re.IGNORECASE`). -/
def matchLitCI : List Char → List Char → Option (List Char)
  | [], s => some s
  | _ :: _, [] => none
  | p :: ps, c :: cs => if c.toLower = p then matchLitCI ps cs else none

/-- First alternative of a word table that matches, with its value:
the determinization of a regex alternation whose overlapping words are
listed longest first. -/
def matchFirst {β : Type} : List (List Char × β) → List Char → Option (β × List Char)
  | [], _ => none
  | (w, v) :: rest, l =>
    match matchLit w l with
    | some r => some (v, r)
    | none => matchFirst rest l

/-- Case-insensitive variant of `matchFirst`. -/
def matchFirstCI {β : Type} : List (List Char × β) → List Char → Option (β × List Char)
  | [], _ => none
  | (w, v) :: rest, l =>
    match matchLitCI w l with
    | some r => some (v, r)
    | none => matchFirstCI rest l

/-- Greedy parser for `\d+(\.\d+)*` starting inside a digit run:
`cur` is the reversed current segment, and the result is the list of
completed digit segments together with the unconsumed rest.  A dot not
followed by a digit is not consumed (the regex group `(\.\d+)*` stops
before it). -/
def segsAux (cur : List Char) : List Char → List (List Char) × List Char
  | [] => ([cur.reverse], [])
  | c :: rest =>
    if isDigitCh c then segsAux (c :: cur) rest
    else if c = '.' then
      match rest with
      | d :: rest2 =>
        if isDigitCh d then
          let p := segsAux [d] rest2
          (cur.reverse :: p.1, p.2)
        else ([cur.reverse], c :: rest)
      | [] => ([cur.reverse], [c])
    else ([cur.reverse], c :: rest)

/-- Reassemble dot-separated segments into the matched substring. -/
def joinTail (segs : List (List Char)) : List Char :=
  segs.flatMap fun s => '.' :: s

/-- The full matched text of `\d+(\.\d+)*` from its segments. -/
def joinSegs : List (List Char) → List Char
  | [] => []
  | s :: rest => s ++ joinTail rest

/-- Strip one leading `v`/`V`: the action of `V_PREFIX_RE.sub("", v)`
(the pattern is anchored, so at most one substitution happens). -/
def stripV : List Char → List Char
  | c :: r => if c = 'v' ∨ c = 'V' then r else c :: r
  | [] => []

/-- Python `str.strip()` on ASCII input. -/
def trimWs (l : List Char) : List Char :=
  ((l.dropWhile isSpaceCh).reverse.dropWhile isSpaceCh).reverse

/-- Fuelled worker for `re.sub` with a literal pattern: replaces every
non-overlapping occurrence left to right; an empty pattern matches at
every position (before each character and at the end), as in Python.
Fuel `s.length + 1` is always sufficient. -/
def subAllCore : Nat → List Char → List Char → List Char → List Char
  | 0, _, _, s => s
  | fuel + 1, p, r, s =>
    match matchLit p s with
    | some rest =>
      if p = [] then
        match s with
        | [] => r
        | c :: cs => r ++ (c :: subAllCore fuel p r cs)
      else r ++ subAllCore fuel p r rest
    | none =>
      match s with
      | [] => []
      | c :: cs => c :: subAllCore fuel p r cs

/-- `re.sub(pattern, replacement, s)` for a literal pattern. -/
def subAll (p r s : List Char) : List Char := subAllCore (s.length + 1) p r s

/-- The split performed by `STABLE_SUFFIX_RE = ^(?P<base>.+)\.stable_(?P<num>\d+)$`:
the trailing digit run must be non-empty, immediately preceded by the
literal `.stable_`, with a non-empty base before it containing no
newline (`.` does not match a newline). -/
def stableSplit (l : List Char) : Option (List Char × List Char) :=
  let rev := l.reverse
  let (dRev, restRev) := takeDigits rev
  if dRev = [] then none
  else
    match matchLit ['_', 'e', 'l', 'b', 'a', 't', 's', '.'] restRev with
    | some baseRev =>
      if baseRev = [] then none
      else if baseRev.all (fun c => c ≠ '\n') then some (baseRev.reverse, dRev.reverse)
      else none
    | none => none

/-- Python string `<` (lexicographic by code point). -/
def lexLt : List Char → List Char → Bool
  | [], [] => false
  | [], _ :: _ => true
  | _ :: _, [] => false
  | c :: cs, d :: ds =>
    if c.toNat < d.toNat then true
    else if d.toNat < c.toNat then false
    else lexLt cs ds

/-! ## The Gentoo version grammar (`GENTOO_VERSION_RE`, `GentooVersion`) -/

/-- The suffix alternation `alpha|beta|pre|rc|p` of `GENTOO_VERSION_RE`
(`SuffixType` in the source; `p` fills the patch/post role). -/
inductive SuffixType : Type
  | alpha | beta | pre | rc | p
deriving DecidableEq, Repr

/-- The word spelled by each suffix tag. -/
def SuffixType.word : SuffixType → List Char
  | .alpha => ['a', 'l', 'p', 'h', 'a']
  | .beta => ['b', 'e', 't', 'a']
  | .pre => ['p', 'r', 'e']
  | .rc => ['r', 'c']
  | .p => ['p']

/-- The dataclass `GentooVersion`: `base` is kept as the matched text,
the numeric fields are the parsed integers. -/
structure GentooVersion : Type where
  base : List Char
  letter : Option Char := none
  suffix_type : Option SuffixType := none
  suffix_num : Option Nat := none
  revision : Option Nat := none
deriving DecidableEq, Repr

/-- The suffix alternation in the regex's order; `pre` before `p`, as in
`alpha|beta|pre|rc|p` (the overlapping pair is listed longest first,
which agrees with the regex's backtracking behaviour here). -/
def suffixTable : List (List Char × SuffixType) :=
  [(SuffixType.word .alpha, .alpha), (SuffixType.word .beta, .beta),
   (SuffixType.word .pre, .pre), (SuffixType.word .rc, .rc),
   (SuffixType.word .p, .p)]

/-- Parse the optional `(?P<letter>[a-z])?` group. -/
def parseLetter : List Char → Option Char × List Char
  | c :: cs => if isLowerCh c then (some c, cs) else (none, c :: cs)
  | [] => (none, [])

/-- Parse the optional trailing `(?:-r(?P<revision>\d+))?$` group; the
result is `none` when the tail fails the anchored grammar. -/
def parseRev : List Char → Option (Option Nat)
  | [] => some none
  | '-' :: 'r' :: r =>
    let p := takeDigits r
    if p.1 = [] then none
    else if p.2 = [] then some (some (digitsVal p.1)) else none
  | _ => none

/-- Parse the optional `(?:_(?P<suffix>...)(?P<suffix_num>\d+)?)?` group
followed by the revision group and the end anchor. -/
def parseSufRev (l : List Char) : Option (Option SuffixType × Option Nat × Option Nat) :=
  match l with
  | '_' :: r =>
    match matchFirst suffixTable r with
    | some (st, r2) =>
      let p := takeDigits r2
      match parseRev p.2 with
      | some rev => some (some st, (if p.1 = [] then none else some (digitsVal p.1)), rev)
      | none => none
    | none => none
  | _ =>
    match parseRev l with
    | some rev => some (none, none, rev)
    | none => none

/-- `parse_gentoo_version` on character lists: match `GENTOO_VERSION_RE`
and build the `GentooVersion`; `none` models the raised `VersionError`. -/
def parseGentooList (l : List Char) : Option GentooVersion :=
  match l with
  | c :: rest =>
    if isDigitCh c then
      let p1 := segsAux [c] rest
      let p2 := parseLetter p1.2
      match parseSufRev p2.2 with
      | some (st, sn, rev) => some ⟨joinSegs p1.1, p2.1, st, sn, rev⟩
      | none => none
    else none
  | [] => none

/-- `parse_gentoo_version`. -/
def parse_gentoo_version (v : String) : Option GentooVersion :=
  parseGentooList v.data

/-- The characters contributed by the letter in `__str__`. -/
def letterChars : Option Char → List Char
  | some c => [c]
  | none => []

/-- The characters contributed by the suffix in `__str__`: the number
is only rendered when a suffix tag is present (the `if` nesting of the
source). -/
def suffixChars : Option SuffixType → Option Nat → List Char
  | some st, sn => '_' :: st.word ++ (match sn with | some n => natRepr n | none => [])
  | none, _ => []

/-- The characters contributed by the revision in `__str__`. -/
def revChars : Option Nat → List Char
  | some n => '-' :: 'r' :: natRepr n
  | none => []

/-- `GentooVersion.__str__` on character lists. -/
def GentooVersion.strList (v : GentooVersion) : List Char :=
  v.base ++ letterChars v.letter ++ suffixChars v.suffix_type v.suffix_num ++
    revChars v.revision

/-- `GentooVersion.__str__`. -/
def GentooVersion.str (v : GentooVersion) : String := ⟨v.strList⟩

/-- `GentooVersion.to_pep440` on character lists: the revision is not
rendered, `alpha`/`beta`/`rc` become PEP 440 pre-release markers,
`pre` becomes a `.dev` release and `p` a `.post` release, each with
`suffix_num or 0`. -/
def GentooVersion.pepList (v : GentooVersion) : List Char :=
  v.base ++
    (match v.letter with | some c => [c] | none => []) ++
    (match v.suffix_type with
     | some .alpha => 'a' :: natRepr (v.suffix_num.getD 0)
     | some .beta => 'b' :: natRepr (v.suffix_num.getD 0)
     | some .rc => 'r' :: 'c' :: natRepr (v.suffix_num.getD 0)
     | some .pre => '.' :: 'd' :: 'e' :: 'v' :: natRepr (v.suffix_num.getD 0)
     | some .p => '.' :: 'p' :: 'o' :: 's' :: 't' :: natRepr (v.suffix_num.getD 0)
     | none => [])

/-- `GentooVersion.to_pep440`. -/
def GentooVersion.to_pep440 (v : GentooVersion) : String := ⟨v.pepList⟩

/-- `normalize_gentoo_version`: strip a leading `v`/`V`, apply the
`stable` rewrite in lenient mode, then require `GENTOO_VERSION_RE` to
match unless lenient; `none` models the raised `VersionError`. -/
def normalize_gentoo_version (v : String) (lenient : Bool) : Option String :=
  let l := stripV v.data
  let l :=
    if lenient then
      match stableSplit l with
      | some (base, num) => base ++ ('_' :: 'p' :: num)
      | none => l
    else l
  if (parseGentooList l).isSome then some ⟨l⟩
  else if lenient then some ⟨l⟩
  else none

/-- `normalize_upstream_version`: strip one leading `v`/`V`, strip a
leading `release-`, then strip surrounding whitespace. -/
def normalize_upstream_version (tag : String) : String :=
  let l := stripV tag.data
  let l :=
    match matchLit ['r', 'e', 'l', 'e', 'a', 's', 'e', '-'] l with
    | some r => r
    | none => l
  ⟨trimWs l⟩

/-- `upstream_to_gentoo`: normalize, apply each rewrite rule in order
with `re.sub` (global), then apply the `stable` rewrite. -/
def upstream_to_gentoo (upstream : String) (suffix_map : List (String × String)) : String :=
  let v := (normalize_upstream_version upstream).data
  let v := suffix_map.foldl (fun acc pr => subAll pr.1.data pr.2.data acc) v
  let v :=
    match stableSplit v with
    | some (base, num) => base ++ ('_' :: 'p' :: num)
    | none => v
  ⟨v⟩

/-! ## The PEP 440 version model (`packaging.version`, modelled from PEP 440) -/

/-- Normalized pre-release letter: `alpha|a` ↦ `a`, `beta|b` ↦ `b`,
`c|pre|preview|rc` ↦ `rc`.  `rank` matches the string comparison of
the normalized spellings used by `packaging` (`"a" < "b" < "rc"`). -/
inductive PreLetter : Type
  | a | b | rc
deriving DecidableEq, Repr

/-- Rank of a normalized pre-release letter. -/
def PreLetter.rank : PreLetter → Nat
  | .a => 0
  | .b => 1
  | .rc => 2

/-- One segment of a PEP 440 local version: all-digit segments compare
as integers and rank above alphanumeric segments. -/
inductive LocalSeg : Type
  | num (n : Nat)
  | str (s : List Char)
deriving DecidableEq, Repr

/-- Parsed PEP 440 version (the fields of `packaging.version.Version`
that exist for every valid input; numbers of pre/post/dev markers
default to 0 when not written). -/
structure Pep440 : Type where
  epoch : Nat
  release : List Nat
  pre : Option (PreLetter × Nat)
  post : Option Nat
  dev : Option Nat
  localSegs : Option (List LocalSeg)
deriving DecidableEq, Repr

/-- Pre-release spellings in an order realizing the regex alternation
`alpha|a|b|beta|c|pre|preview|rc` (overlapping words longest first,
which coincides with the regex's backtracking behaviour). -/
def preTagTable : List (List Char × PreLetter) :=
  [(['a', 'l', 'p', 'h', 'a'], .a), (['b', 'e', 't', 'a'], .b),
   (['p', 'r', 'e', 'v', 'i', 'e', 'w'], .rc), (['p', 'r', 'e'], .rc),
   (['r', 'c'], .rc), (['a'], .a), (['b'], .b), (['c'], .rc)]

/-- Post-release spellings `post|rev|r` (longest first). -/
def postTagTable : List (List Char × Unit) :=
  [(['p', 'o', 's', 't'], ()), (['r', 'e', 'v'], ()), (['r'], ())]

/-- Consume an optional single separator `[-_.]?`. -/
def dropSep : List Char → List Char
  | c :: r => if isSepCh c then r else c :: r
  | [] => []

/-- The pre-release group `([-_.]?(alpha|a|b|beta|c|pre|preview|rc)[-_.]?N?)?`:
nothing is consumed when no spelling matches after the optional
separator; the inner separator is consumed greedily. -/
def parsePre (l : List Char) : Option (PreLetter × Nat) × List Char :=
  match matchFirstCI preTagTable (dropSep l) with
  | some (t, r) =>
    let r1 := dropSep r
    let (d, r2) := takeDigits r1
    if d = [] then (some (t, 0), r1) else (some (t, digitsVal d), r2)
  | none => (none, l)

/-- The post-release group `((-N)|([-_.]?(post|rev|r)[-_.]?N?))?`; the
bare `-N` alternative is tried first, as in the regex. -/
def parsePost (l : List Char) : Option Nat × List Char :=
  let letterForm : Option Nat × List Char :=
    match matchFirstCI postTagTable (dropSep l) with
    | some (_, r) =>
      let r1 := dropSep r
      let (d, r2) := takeDigits r1
      if d = [] then (some 0, r1) else (some (digitsVal d), r2)
    | none => (none, l)
  match l with
  | '-' :: r =>
    let (d, r2) := takeDigits r
    if d = [] then letterForm else (some (digitsVal d), r2)
  | _ => letterForm

/-- The dev-release group `([-_.]?dev[-_.]?N?)?`. -/
def parseDev (l : List Char) : Option Nat × List Char :=
  match matchLitCI ['d', 'e', 'v'] (dropSep l) with
  | some r =>
    let r1 := dropSep r
    let (d, r2) := takeDigits r1
    if d = [] then (some 0, r1) else (some (digitsVal d), r2)
  | none => (none, l)

/-- Greedy parser for local segments `[a-z0-9]+([-_.][a-z0-9]+)*`,
lowercasing as `packaging` does; `cur` is the reversed current
segment.  A separator not followed by an alphanumeric character is not
consumed. -/
def localAux (cur : List Char) : List Char → List (List Char) × List Char
  | [] => ([cur.reverse], [])
  | c :: rest =>
    if isAlnumCh c then localAux (c.toLower :: cur) rest
    else if isSepCh c then
      match rest with
      | d :: rest2 =>
        if isAlnumCh d then
          let (segs, r) := localAux [d.toLower] rest2
          (cur.reverse :: segs, r)
        else ([cur.reverse], c :: rest)
      | [] => ([cur.reverse], [c])
    else ([cur.reverse], c :: rest)

/-- Classify a local segment: all-digit segments become integers. -/
def classifySeg (s : List Char) : LocalSeg :=
  if s.all isDigitCh then .num (digitsVal s) else .str s

/-- The local version group `(\+[a-z0-9]+([-_.][a-z0-9]+)*)?`; a `+`
not followed by a well-formed local version fails the whole match. -/
def parseLocal (l : List Char) : Option (Option (List LocalSeg) × List Char) :=
  match l with
  | '+' :: r =>
    match r with
    | c :: r2 =>
      if isAlnumCh c then
        let (segs, rest) := localAux [c.toLower] r2
        some (some (segs.map classifySeg), rest)
      else none
    | [] => none
  | _ => some (none, l)

/-- `packaging.version.parse` modelled from PEP 440: optional
whitespace, optional `v`, optional epoch `N!`, release `N(.N)*`, then
the pre/post/dev/local groups, then optional whitespace to the end.
`none` models the `InvalidVersion` exception. -/
def parsePep (l0 : List Char) : Option Pep440 :=
  let l1 := l0.dropWhile isSpaceCh
  let l2 := stripV l1
  let (ep, l3) :=
    let (d, r) := takeDigits l2
    match r with
    | '!' :: r2 => if d = [] then (0, l2) else (digitsVal d, r2)
    | _ => (0, l2)
  match l3 with
  | c :: rest =>
    if isDigitCh c then
      let (segs, r1) := segsAux [c] rest
      let rel := segs.map digitsVal
      let (pre, r2) := parsePre r1
      let (post, r3) := parsePost r2
      let (dev, r4) := parseDev r3
      match parseLocal r4 with
      | some (loc, r5) =>
        if r5.all isSpaceCh then some ⟨ep, rel, pre, post, dev, loc⟩ else none
      | none => none
    else none
  | [] => none

/-- `packaging.version.parse` over `String`. -/
def parsePepStr (s : String) : Option Pep440 := parsePep s.data

/-! ## The PEP 440 comparison key and ordering -/

/-- The pre-release slot of `_cmpkey`: `NegativeInfinity` for a
dev-only release, `Infinity` for a plain release, the (letter, number)
pair otherwise. -/
inductive PreKey : Type
  | negInf | val (t : Nat) (n : Nat) | inf
deriving DecidableEq, Repr

/-- Three-way comparison on `Nat`. -/
def natCmp (n m : Nat) : Ordering :=
  if n < m then .lt else if m < n then .gt else .eq

/-- Python tuple/list lexicographic comparison with a given element
comparison (a strict prefix is smaller). -/
def listCmpWith {α : Type} (f : α → α → Ordering) : List α → List α → Ordering
  | [], [] => .eq
  | [], _ :: _ => .lt
  | _ :: _, [] => .gt
  | x :: xs, y :: ys => (f x y).then (listCmpWith f xs ys)

/-- Comparison of characters by code point. -/
def charCmp (c d : Char) : Ordering := natCmp c.toNat d.toNat

/-- Comparison of the pre-release slot. -/
def preKeyCmp : PreKey → PreKey → Ordering
  | .negInf, .negInf => .eq
  | .negInf, _ => .lt
  | _, .negInf => .gt
  | .inf, .inf => .eq
  | .inf, _ => .gt
  | _, .inf => .lt
  | .val t n, .val t2 n2 => (natCmp t t2).then (natCmp n n2)

/-- Comparison of the post slot (`NegativeInfinity` when absent). -/
def postKeyCmp : Option Nat → Option Nat → Ordering
  | none, none => .eq
  | none, some _ => .lt
  | some _, none => .gt
  | some n, some m => natCmp n m

/-- Comparison of the dev slot (`Infinity` when absent). -/
def devKeyCmp : Option Nat → Option Nat → Ordering
  | none, none => .eq
  | none, some _ => .gt
  | some _, none => .lt
  | some n, some m => natCmp n m

/-- Comparison of one local segment: integer segments rank above
string segments. -/
def localSegCmp : LocalSeg → LocalSeg → Ordering
  | .num n, .num m => natCmp n m
  | .num _, .str _ => .gt
  | .str _, .num _ => .lt
  | .str s, .str t => listCmpWith charCmp s t

/-- Comparison of the local slot (`NegativeInfinity` when absent). -/
def localKeyCmp : Option (List LocalSeg) → Option (List LocalSeg) → Ordering
  | none, none => .eq
  | none, some _ => .lt
  | some _, none => .gt
  | some s, some t => listCmpWith localSegCmp s t

/-- Release tuple with trailing zeros removed, as in `_cmpkey`. -/
def stripZeros (l : List Nat) : List Nat :=
  (l.reverse.dropWhile (· = 0)).reverse

/-- The pre-release slot of the key of a version. -/
def Pep440.preKey (v : Pep440) : PreKey :=
  match v.pre, v.post, v.dev with
  | none, none, some _ => .negInf
  | none, _, _ => .inf
  | some (t, n), _, _ => .val t.rank n

/-- `_cmpkey` comparison: epoch, then release (without trailing
zeros), then pre, post, dev and local slots. -/
def keyCmp (x y : Pep440) : Ordering :=
  (natCmp x.epoch y.epoch).then
    ((listCmpWith natCmp (stripZeros x.release) (stripZeros y.release)).then
      ((preKeyCmp x.preKey y.preKey).then
        ((postKeyCmp x.post y.post).then
          ((devKeyCmp x.dev y.dev).then
            (localKeyCmp x.localSegs y.localSegs)))))

/-- Three-way result as the Python comparison chain renders it. -/
def ordInt : Ordering → Int
  | .gt => 1
  | .lt => -1
  | .eq => 0

/-! ## `compare_versions` -/

/-- Python's `if a > b: 1 elif a < b: -1 else: 0` on raw strings. -/
def pyStrCmp (a b : String) : Int :=
  if lexLt b.data a.data then 1 else if lexLt a.data b.data then -1 else 0

/-- The second `try` block of `compare_versions`: parse both candidate
strings as PEP 440 and compare; on any failure fall back to plain
string comparison of the raw inputs. -/
def cmpStage2 (pa pb a b : String) : Int :=
  match parsePepStr pa, parsePepStr pb with
  | some va, some vb => ordInt (keyCmp va vb)
  | _, _ => pyStrCmp a b

/-- `compare_versions`: translate both sides through the Gentoo
grammar to PEP 440 when both parse (the first `try` block), otherwise
keep the raw strings, then compare via `cmpStage2`. -/
def compare_versions (a b : String) : Int :=
  match parse_gentoo_version a, parse_gentoo_version b with
  | some ga, some gb => cmpStage2 ga.to_pep440 gb.to_pep440 a b
  | _, _ => cmpStage2 a b a b

/-! ## Ordering lemmas for the comparator -/

theorem then_swap (o1 o2 : Ordering) : (o1.then o2).swap = o1.swap.then o2.swap := by
  cases o1 <;> rfl

theorem natCmp_refl (n : Nat) : natCmp n n = .eq := by
  simp [natCmp]

theorem natCmp_swap (n m : Nat) : natCmp n m = (natCmp m n).swap := by
  unfold natCmp
  split_ifs <;> first | rfl | omega

theorem listCmpWith_refl {α : Type} (f : α → α → Ordering)
    (hf : ∀ x, f x x = .eq) : ∀ l : List α, listCmpWith f l l = .eq := by
  intro l
  induction l with
  | nil => rfl
  | cons x xs ih => simp [listCmpWith, hf, ih, Ordering.then]

theorem listCmpWith_swap {α : Type} (f : α → α → Ordering)
    (hf : ∀ x y, f x y = (f y x).swap) :
    ∀ l m : List α, listCmpWith f l m = (listCmpWith f m l).swap := by
  intro l
  induction l with
  | nil => intro m; cases m <;> rfl
  | cons x xs ih =>
    intro m
    cases m with
    | nil => rfl
    | cons y ys => simp [listCmpWith, hf x y, ih ys, then_swap]

theorem charCmp_refl (c : Char) : charCmp c c = .eq := natCmp_refl _

theorem charCmp_swap (c d : Char) : charCmp c d = (charCmp d c).swap := natCmp_swap _ _

theorem preKeyCmp_refl (k : PreKey) : preKeyCmp k k = .eq := by
  cases k with
  | val t n => simp [preKeyCmp, natCmp_refl, Ordering.then]
  | _ => rfl

theorem preKeyCmp_swap (k j : PreKey) : preKeyCmp k j = (preKeyCmp j k).swap := by
  cases k <;> cases j <;>
    simp only [preKeyCmp, then_swap, ← natCmp_swap] <;> rfl

theorem postKeyCmp_refl (k : Option Nat) : postKeyCmp k k = .eq := by
  cases k with
  | some n => exact natCmp_refl n
  | none => rfl

theorem postKeyCmp_swap (k j : Option Nat) : postKeyCmp k j = (postKeyCmp j k).swap := by
  cases k <;> cases j <;> simp only [postKeyCmp, ← natCmp_swap] <;> rfl

theorem devKeyCmp_refl (k : Option Nat) : devKeyCmp k k = .eq := by
  cases k with
  | some n => exact natCmp_refl n
  | none => rfl

theorem devKeyCmp_swap (k j : Option Nat) : devKeyCmp k j = (devKeyCmp j k).swap := by
  cases k <;> cases j <;> simp only [devKeyCmp, ← natCmp_swap] <;> rfl

theorem localSegCmp_refl (s : LocalSeg) : localSegCmp s s = .eq := by
  cases s with
  | num n => exact natCmp_refl n
  | str s => exact listCmpWith_refl charCmp charCmp_refl s

theorem localSegCmp_swap (s t : LocalSeg) : localSegCmp s t = (localSegCmp t s).swap := by
  cases s <;> cases t
  · exact natCmp_swap _ _
  · rfl
  · rfl
  · exact listCmpWith_swap charCmp charCmp_swap _ _

theorem localKeyCmp_refl (k : Option (List LocalSeg)) : localKeyCmp k k = .eq := by
  cases k with
  | some s => exact listCmpWith_refl localSegCmp localSegCmp_refl s
  | none => rfl

theorem localKeyCmp_swap (k j : Option (List LocalSeg)) :
    localKeyCmp k j = (localKeyCmp j k).swap := by
  cases k <;> cases j
  · rfl
  · rfl
  · rfl
  · exact listCmpWith_swap localSegCmp localSegCmp_swap _ _

theorem keyCmp_refl (v : Pep440) : keyCmp v v = .eq := by
  simp [keyCmp, natCmp_refl, listCmpWith_refl natCmp natCmp_refl,
    preKeyCmp_refl, postKeyCmp_refl, devKeyCmp_refl, localKeyCmp_refl, Ordering.then]

theorem keyCmp_swap (x y : Pep440) : keyCmp x y = (keyCmp y x).swap := by
  unfold keyCmp
  simp only [then_swap, ← natCmp_swap, ← preKeyCmp_swap, ← postKeyCmp_swap,
    ← devKeyCmp_swap, ← localKeyCmp_swap, ← listCmpWith_swap natCmp natCmp_swap]

theorem ordInt_swap (o : Ordering) : ordInt o.swap = -(ordInt o) := by
  cases o <;> rfl

theorem lexLt_irrefl : ∀ l : List Char, lexLt l l = false := by
  intro l
  induction l with
  | nil => rfl
  | cons c cs ih => simp [lexLt, ih]

theorem lexLt_asymm : ∀ l m : List Char, lexLt l m = true → lexLt m l = false := by
  intro l
  induction l with
  | nil => intro m h; cases m <;> simp_all [lexLt]
  | cons c cs ih =>
    intro m h
    cases m with
    | nil => simp [lexLt] at h
    | cons d ds =>
      by_cases h1 : c.toNat < d.toNat
      · simp [lexLt, Nat.lt_asymm h1, h1]
      · by_cases h2 : d.toNat < c.toNat
        · simp [lexLt, h1, h2] at h
        · simp only [lexLt, if_neg h1, if_neg h2] at h
          simp [lexLt, h1, h2, ih ds h]

theorem pyStrCmp_refl (a : String) : pyStrCmp a a = 0 := by
  simp [pyStrCmp, lexLt_irrefl]

theorem pyStrCmp_swap (a b : String) : pyStrCmp a b = -pyStrCmp b a := by
  unfold pyStrCmp
  rcases h1 : lexLt b.data a.data with _ | _
  · rcases h2 : lexLt a.data b.data with _ | _
    · simp [h1, h2]
    · simp [h1, h2]
  · have h2 := lexLt_asymm _ _ h1
    simp [h1, h2]

theorem cmpStage2_swap (pa pb a b : String) :
    cmpStage2 pa pb a b = -cmpStage2 pb pa b a := by
  unfold cmpStage2
  rcases h1 : parsePepStr pa with _ | va <;> rcases h2 : parsePepStr pb with _ | vb <;>
    simp [pyStrCmp_swap a b]
  rw [keyCmp_swap, ordInt_swap]

theorem cmpStage2_self (p a : String) : cmpStage2 p p a a = 0 := by
  unfold cmpStage2
  rcases h : parsePepStr p with _ | v <;> simp [pyStrCmp_refl, keyCmp_refl, ordInt]

theorem ordInt_mem (o : Ordering) : ordInt o = -1 ∨ ordInt o = 0 ∨ ordInt o = 1 := by
  cases o <;> simp [ordInt]

theorem pyStrCmp_mem (a b : String) :
    pyStrCmp a b = -1 ∨ pyStrCmp a b = 0 ∨ pyStrCmp a b = 1 := by
  unfold pyStrCmp
  rcases lexLt b.data a.data <;> rcases lexLt a.data b.data <;> simp

theorem cmpStage2_mem (pa pb a b : String) :
    cmpStage2 pa pb a b = -1 ∨ cmpStage2 pa pb a b = 0 ∨ cmpStage2 pa pb a b = 1 := by
  unfold cmpStage2
  rcases parsePepStr pa with _ | va <;> rcases parsePepStr pb with _ | vb <;>
    first
      | exact pyStrCmp_mem a b
      | exact ordInt_mem _

/-- When either candidate fails PEP 440 parsing, the second stage of
`compare_versions` is plain string comparison of the raw inputs. -/
theorem cmpStage2_fallback (pa pb a b : String)
    (h : parsePepStr pa = none ∨ parsePepStr pb = none) :
    cmpStage2 pa pb a b = pyStrCmp a b := by
  unfold cmpStage2
  cases hpa : parsePepStr pa <;> cases hpb : parsePepStr pb <;> simp_all

/-! ## Round-trip lemmas for the Gentoo parser -/

/-- Well-formed dot segments: non-empty strings of digits. -/
def wfSegs (segs : List (List Char)) : Prop :=
  ∀ s ∈ segs, s ≠ [] ∧ ∀ c ∈ s, isDigitCh c = true

theorem digitsVal_append_single (l : List Char) (c : Char) :
    digitsVal (l ++ [c]) = 10 * digitsVal l + digitVal c := by
  simp [digitsVal, List.foldl_append]

theorem digitVal_digitChar (k : Nat) (h : k < 10) :
    digitVal (Nat.digitChar k) = k := by
  interval_cases k <;> decide

theorem isDigitCh_digitChar (k : Nat) (h : k < 10) :
    isDigitCh (Nat.digitChar k) = true := by
  interval_cases k <;> decide

theorem natReprCore_val : ∀ fuel n : Nat, n ≤ fuel → digitsVal (natReprCore fuel n) = n := by
  intro fuel
  induction fuel with
  | zero =>
    intro n hn
    have : n = 0 := Nat.le_zero.mp hn
    subst this
    rfl
  | succ f ih =>
    intro n hn
    cases n with
    | zero => rfl
    | succ m =>
      have hdiv : (m + 1) / 10 ≤ f := by
        have := Nat.div_lt_self (Nat.succ_pos m) (by omega : 1 < 10)
        omega
      rw [natReprCore, digitsVal_append_single, ih _ hdiv,
        digitVal_digitChar _ (Nat.mod_lt _ (by omega))]
      omega

theorem natReprCore_digits : ∀ fuel n : Nat, ∀ c ∈ natReprCore fuel n, isDigitCh c = true := by
  intro fuel
  induction fuel with
  | zero =>
    intro n c hc
    cases n <;> simp [natReprCore] at hc
  | succ f ih =>
    intro n c hc
    cases n with
    | zero => simp [natReprCore] at hc
    | succ m =>
      rw [natReprCore] at hc
      rcases List.mem_append.mp hc with h | h
      · exact ih _ c h
      · have : c = Nat.digitChar ((m + 1) % 10) := by simpa using h
        subst this
        exact isDigitCh_digitChar _ (Nat.mod_lt _ (by omega))

theorem natRepr_val (n : Nat) : digitsVal (natRepr n) = n := by
  unfold natRepr
  by_cases h : n = 0
  · subst h; rfl
  · rw [if_neg h]; exact natReprCore_val n n (Nat.le_refl n)

theorem natRepr_digits (n : Nat) : ∀ c ∈ natRepr n, isDigitCh c = true := by
  unfold natRepr
  by_cases h : n = 0
  · subst h; intro c hc; simp at hc; subst hc; rfl
  · rw [if_neg h]; exact natReprCore_digits n n

theorem natRepr_ne (n : Nat) : natRepr n ≠ [] := by
  unfold natRepr
  by_cases h : n = 0
  · subst h; simp
  · rw [if_neg h]
    cases n with
    | zero => exact absurd rfl h
    | succ m => rw [natReprCore]; simp

theorem takeDigits_all (d r : List Char) (hd : ∀ c ∈ d, isDigitCh c = true)
    (hr : r = [] ∨ ∃ c rest, r = c :: rest ∧ isDigitCh c = false) :
    takeDigits (d ++ r) = (d, r) := by
  induction d with
  | nil =>
    rcases hr with rfl | ⟨c, rest, rfl, hc⟩
    · rfl
    · simp [takeDigits, hc]
  | cons c d ih =>
    have hc : isDigitCh c = true := hd c (by simp)
    have hrec := ih fun x hx => hd x (by simp [hx])
    show takeDigits (c :: (d ++ r)) = (c :: d, r)
    simp [takeDigits, hc, hrec]

theorem matchLit_self (p t : List Char) : matchLit p (p ++ t) = some t := by
  induction p with
  | nil => rfl
  | cons c p ih => simp [matchLit, ih]

theorem segsAux_nil (cur : List Char) : segsAux cur [] = ([cur.reverse], []) := by
  rw [segsAux.eq_def]

theorem segsAux_cons (cur : List Char) (c : Char) (rest : List Char) :
    segsAux cur (c :: rest) =
      if isDigitCh c then segsAux (c :: cur) rest
      else if c = '.' then
        match rest with
        | d :: rest2 =>
          if isDigitCh d then
            let p := segsAux [d] rest2
            (cur.reverse :: p.1, p.2)
          else ([cur.reverse], c :: rest)
        | [] => ([cur.reverse], [c])
      else ([cur.reverse], c :: rest) := by
  rw [segsAux.eq_def]

theorem segsAux_digits (ds : List Char) (hd : ∀ c ∈ ds, isDigitCh c = true) :
    ∀ cur rest, segsAux cur (ds ++ rest) = segsAux (ds.reverse ++ cur) rest := by
  induction ds with
  | nil => intro cur rest; simp
  | cons c ds ih =>
    intro cur rest
    have hc : isDigitCh c = true := hd c (by simp)
    have hrec := ih (fun x hx => hd x (by simp [hx])) (c :: cur) rest
    rw [List.cons_append, segsAux_cons, if_pos hc, hrec]
    simp [List.reverse_cons, List.append_assoc]

theorem segsAux_complete :
    ∀ segs : List (List Char), wfSegs segs → ∀ cur t : List Char,
      (t = [] ∨ ∃ c rest, t = c :: rest ∧ isDigitCh c = false ∧ c ≠ '.') →
      segsAux cur (joinTail segs ++ t) = (cur.reverse :: segs, t) := by
  intro segs
  induction segs with
  | nil =>
    intro _ cur t ht
    show segsAux cur t = ([cur.reverse], t)
    rcases ht with rfl | ⟨c, rest, rfl, h1, h2⟩
    · rfl
    · rw [segsAux_cons]
      simp [h1, h2]
  | cons s rest ih =>
    intro hwf cur t ht
    obtain ⟨hs, hsd⟩ := hwf s (by simp)
    obtain ⟨d, ds, rfl⟩ : ∃ d ds, s = d :: ds := by
      cases s with
      | nil => exact absurd rfl hs
      | cons d ds => exact ⟨d, ds, rfl⟩
    have hd : isDigitCh d = true := hsd d (by simp)
    have hds : ∀ c ∈ ds, isDigitCh c = true := fun c hc => hsd c (by simp [hc])
    have hrest : wfSegs rest := fun x hx => hwf x (by simp [hx])
    have hjt : joinTail ((d :: ds) :: rest) ++ t = '.' :: d :: (ds ++ (joinTail rest ++ t)) := by
      simp [joinTail, List.append_assoc]
    rw [hjt]
    have hstep : segsAux [d] (ds ++ (joinTail rest ++ t)) =
        ((ds.reverse ++ [d]).reverse :: rest, t) := by
      rw [segsAux_digits ds hds [d] (joinTail rest ++ t)]
      exact ih hrest (ds.reverse ++ [d]) t ht
    rw [segsAux_cons]
    simp [hd, hstep, (by decide : isDigitCh '.' = false)]

theorem segsAux_sound :
    ∀ (n : Nat) (l : List Char), l.length ≤ n → ∀ cur : List Char,
      ∃ ds segs2 r, segsAux cur l = ((cur.reverse ++ ds) :: segs2, r) ∧
        (∀ c ∈ ds, isDigitCh c = true) ∧ wfSegs segs2 := by
  intro n
  induction n with
  | zero =>
    intro l hl cur
    have : l = [] := List.length_eq_zero.mp (Nat.le_zero.mp hl)
    subst this
    exact ⟨[], [], [], by simp [segsAux_nil], by simp, by intro s hs; simp at hs⟩
  | succ n ih =>
    intro l hl cur
    cases l with
    | nil => exact ⟨[], [], [], by simp [segsAux_nil], by simp, by intro s hs; simp at hs⟩
    | cons c rest =>
      by_cases hc : isDigitCh c = true
      · obtain ⟨ds, segs2, r, heq, hds, hwf⟩ :=
          ih rest (by simp at hl; omega) (c :: cur)
        refine ⟨c :: ds, segs2, r, ?_, ?_, hwf⟩
        · rw [segsAux_cons, if_pos hc, heq]
          simp [List.reverse_cons, List.append_assoc]
        · intro x hx
          rcases List.mem_cons.mp hx with rfl | hx
          · exact hc
          · exact hds x hx
      · by_cases hdot : c = '.'
        · subst hdot
          cases rest with
          | nil =>
            refine ⟨[], [], ['.'], ?_, by simp, by intro s hs; simp at hs⟩
            rw [segsAux_cons]
            simp [hc]
          | cons d rest2 =>
            by_cases hd : isDigitCh d = true
            · obtain ⟨ds, segs2, r, heq, hds, hwf⟩ :=
                ih rest2 (by simp at hl; omega) [d]
              refine ⟨[], (d :: ds) :: segs2, r, ?_, by simp, ?_⟩
              · rw [segsAux_cons]
                simp [hc, hd, heq]
              · intro s hs
                rcases List.mem_cons.mp hs with rfl | hs
                · exact ⟨by simp, by
                    intro x hx
                    rcases List.mem_cons.mp hx with rfl | hx
                    · exact hd
                    · exact hds x hx⟩
                · exact hwf s hs
            · refine ⟨[], [], '.' :: d :: rest2, ?_, by simp, by intro s hs; simp at hs⟩
              rw [segsAux_cons]
              simp [hc, hd]
        · refine ⟨[], [], c :: rest, ?_, by simp, by intro s hs; simp at hs⟩
          rw [segsAux_cons]
          simp [hc, hdot]

/-- Completeness of the suffix alternation: each suffix word is
recognized in front of a tail that starts with a digit, a hyphen or
nothing (which is how `__str__` renders the rest). -/
theorem matchFirst_suffix (stv : SuffixType) (X : List Char)
    (hX : X = [] ∨ ∃ c rest, X = c :: rest ∧ (isDigitCh c = true ∨ c = '-')) :
    matchFirst suffixTable (stv.word ++ X) = some (stv, X) := by
  have hne : ∀ c rest, X = c :: rest → c ≠ 'r' ∧ c ≠ 'e' ∧ c ≠ 'c' := by
    intro c rest hc
    rcases hX with rfl | ⟨c2, rest2, heq, hd⟩
    · cases hc
    · rw [hc] at heq
      obtain ⟨rfl, rfl⟩ : c2 = c ∧ rest2 = rest := by
        constructor <;> injection heq <;> simp_all
      rcases hd with hd | rfl
      · refine ⟨?_, ?_, ?_⟩ <;> rintro rfl <;> simp [isDigitCh] at hd
      · refine ⟨by decide, by decide, by decide⟩
  cases stv with
  | alpha => simp [suffixTable, matchFirst, SuffixType.word, matchLit]
  | beta => simp [suffixTable, matchFirst, SuffixType.word, matchLit]
  | pre => simp [suffixTable, matchFirst, SuffixType.word, matchLit]
  | rc => simp [suffixTable, matchFirst, SuffixType.word, matchLit]
  | p =>
    cases X with
    | nil => simp [suffixTable, matchFirst, SuffixType.word, matchLit]
    | cons c rest =>
      obtain ⟨h1, _, _⟩ := hne c rest rfl
      simp [suffixTable, matchFirst, SuffixType.word, matchLit, h1]

theorem isLowerCh_not_digit (a : Char) (h : isLowerCh a = true) : isDigitCh a = false := by
  simp [isLowerCh] at h
  simp [isDigitCh]
  omega

theorem isLowerCh_ne_dot (a : Char) (h : isLowerCh a = true) : a ≠ '.' := by
  intro hd
  rw [hd] at h
  exact absurd h (by decide)

theorem parseLetter_some (a : Char) (ha : isLowerCh a = true) (t : List Char) :
    parseLetter (a :: t) = (some a, t) := by
  simp [parseLetter, ha]

theorem parseLetter_skip (t : List Char)
    (ht : t = [] ∨ ∃ c rest, t = c :: rest ∧ isLowerCh c = false) :
    parseLetter t = (none, t) := by
  rcases ht with rfl | ⟨c, rest, rfl, hc⟩
  · rfl
  · simp [parseLetter, hc]

theorem takeDigits_none (r : List Char)
    (hr : r = [] ∨ ∃ c rest, r = c :: rest ∧ isDigitCh c = false) :
    takeDigits r = ([], r) :=
  takeDigits_all [] r (by simp) hr

theorem revChars_safe (rev : Option Nat) :
    revChars rev = [] ∨ ∃ c rest, revChars rev = c :: rest ∧ isDigitCh c = false := by
  cases rev with
  | none => exact Or.inl rfl
  | some n => exact Or.inr ⟨'-', _, rfl, by decide⟩

theorem parseRev_complete (rev : Option Nat) : parseRev (revChars rev) = some rev := by
  cases rev with
  | none => rfl
  | some n =>
    show parseRev ('-' :: 'r' :: natRepr n) = some (some n)
    have h : takeDigits (natRepr n) = (natRepr n, []) := by
      have := takeDigits_all (natRepr n) [] (natRepr_digits n) (Or.inl rfl)
      simpa using this
    simp [parseRev, h, natRepr_ne n, natRepr_val n]

theorem parseSufRev_complete (st : Option SuffixType) (sn rev : Option Nat)
    (hinv : st = none → sn = none) :
    parseSufRev (suffixChars st sn ++ revChars rev) = some (st, sn, rev) := by
  cases st with
  | none =>
    have hsn : sn = none := hinv rfl
    subst hsn
    show parseSufRev ([] ++ revChars rev) = some (none, none, rev)
    rw [List.nil_append]
    cases rev with
    | none => rfl
    | some n =>
      have h := parseRev_complete (some n)
      rw [show revChars (some n) = '-' :: 'r' :: natRepr n from rfl] at h
      show parseSufRev ('-' :: 'r' :: natRepr n) = some (none, none, some n)
      simp [parseSufRev, h]
  | some stv =>
    have hX : (match sn with | some n => natRepr n | none => []) ++ revChars rev = [] ∨
        ∃ c rest,
          (match sn with | some n => natRepr n | none => []) ++ revChars rev = c :: rest ∧
            (isDigitCh c = true ∨ c = '-') := by
      cases sn with
      | some n =>
        obtain ⟨d0, dt, hd0⟩ : ∃ d0 dt, natRepr n = d0 :: dt := by
          cases hnr : natRepr n with
          | nil => exact absurd hnr (natRepr_ne n)
          | cons d0 dt => exact ⟨d0, dt, rfl⟩
        refine Or.inr ⟨d0, dt ++ revChars rev, ?_, Or.inl ?_⟩
        · simp [hd0]
        · exact natRepr_digits n d0 (by simp [hd0])
      | none =>
        cases rev with
        | none => exact Or.inl rfl
        | some n => exact Or.inr ⟨'-', _, rfl, Or.inr rfl⟩
    have hstr : suffixChars (some stv) sn ++ revChars rev =
        '_' :: (stv.word ++ ((match sn with | some n => natRepr n | none => []) ++
          revChars rev)) := by
      simp [suffixChars, List.append_assoc]
    rw [hstr]
    have hm := matchFirst_suffix stv _ hX
    have htd : takeDigits ((match sn with | some n => natRepr n | none => []) ++
        revChars rev) = ((match sn with | some n => natRepr n | none => []), revChars rev) := by
      cases sn with
      | some n => exact takeDigits_all (natRepr n) _ (natRepr_digits n) (revChars_safe rev)
      | none => exact takeDigits_none _ (revChars_safe rev)
    cases sn with
    | some n =>
      simp only [parseSufRev, hm, htd, parseRev_complete rev, natRepr_ne n,
        if_neg (natRepr_ne n)]
      simp [natRepr_val n]
    | none =>
      simp only [parseSufRev, hm, htd, parseRev_complete rev]
      simp

theorem parseSufRev_inv (l : List Char) (st : Option SuffixType) (sn rev : Option Nat)
    (h : parseSufRev l = some (st, sn, rev)) : st = none → sn = none := by
  intro hst
  subst hst
  rw [parseSufRev.eq_def] at h
  split at h
  · rename_i r
    cases hm : matchFirst suffixTable r with
    | none => rw [hm] at h; simp at h
    | some p =>
      obtain ⟨st0, r2⟩ := p
      rw [hm] at h
      dsimp only at h
      cases hpr : parseRev (takeDigits r2).2 <;> rw [hpr] at h <;> simp at h
  · cases hpr : parseRev l with
    | none => rw [hpr] at h; simp at h
    | some rev0 =>
      rw [hpr] at h
      simp at h
      exact h.1.symm

theorem parseLetter_sound (l : List Char) :
    parseLetter l = (none, l) ∨
    ∃ a t, l = a :: t ∧ isLowerCh a = true ∧ parseLetter l = (some a, t) := by
  cases l with
  | nil => exact Or.inl rfl
  | cons a t =>
    by_cases ha : isLowerCh a = true
    · exact Or.inr ⟨a, t, rfl, ha, by simp [parseLetter, ha]⟩
    · exact Or.inl (by simp [parseLetter, ha])

/-- Completeness of the Gentoo parser on serialized values: a version
whose base was produced by the base parser and whose other fields
satisfy the parser's invariants re-parses from its `__str__` form to
itself. -/
theorem parseGentooList_complete (c : Char) (hc : isDigitCh c = true)
    (ds : List Char) (hds : ∀ x ∈ ds, isDigitCh x = true)
    (segs2 : List (List Char)) (hwf2 : wfSegs segs2)
    (letter : Option Char) (hlet : letter = none ∨ ∃ a, letter = some a ∧ isLowerCh a = true)
    (st : Option SuffixType) (sn rev : Option Nat) (hinv : st = none → sn = none) :
    parseGentooList
        (GentooVersion.strList ⟨joinSegs ((c :: ds) :: segs2), letter, st, sn, rev⟩) =
      some ⟨joinSegs ((c :: ds) :: segs2), letter, st, sn, rev⟩ := by
  have hsufhead : suffixChars st sn ++ revChars rev = [] ∨
      ∃ ch r2, suffixChars st sn ++ revChars rev = ch :: r2 ∧ (ch = '_' ∨ ch = '-') := by
    cases st with
    | some stv => exact Or.inr ⟨'_', _, rfl, Or.inl rfl⟩
    | none =>
      cases rev with
      | none => exact Or.inl rfl
      | some n => exact Or.inr ⟨'-', _, rfl, Or.inr rfl⟩
  have hsafe : (letterChars letter ++ (suffixChars st sn ++ revChars rev)) = [] ∨
      ∃ ch r2, letterChars letter ++ (suffixChars st sn ++ revChars rev) = ch :: r2 ∧
        isDigitCh ch = false ∧ ch ≠ '.' := by
    rcases hlet with rfl | ⟨a, rfl, hla⟩
    · rcases hsufhead with he | ⟨ch, r2, he, hch⟩
      · exact Or.inl (by simp [letterChars, he])
      · refine Or.inr ⟨ch, r2, by simp [letterChars, he], ?_, ?_⟩
        · rcases hch with rfl | rfl <;> decide
        · rcases hch with rfl | rfl <;> decide
    · exact Or.inr ⟨a, suffixChars st sn ++ revChars rev, by simp [letterChars],
        isLowerCh_not_digit a hla, isLowerCh_ne_dot a hla⟩
  have hstr : GentooVersion.strList ⟨joinSegs ((c :: ds) :: segs2), letter, st, sn, rev⟩ =
      c :: (ds ++ (joinTail segs2 ++
        (letterChars letter ++ (suffixChars st sn ++ revChars rev)))) := by
    simp [GentooVersion.strList, joinSegs, List.append_assoc]
  have hre : segsAux [c] (ds ++ (joinTail segs2 ++
      (letterChars letter ++ (suffixChars st sn ++ revChars rev)))) =
      ((c :: ds) :: segs2, letterChars letter ++ (suffixChars st sn ++ revChars rev)) := by
    rw [segsAux_digits ds hds [c] _,
      segsAux_complete segs2 hwf2 (ds.reverse ++ [c]) _ hsafe]
    simp
  have hpl : parseLetter (letterChars letter ++ (suffixChars st sn ++ revChars rev)) =
      (letter, suffixChars st sn ++ revChars rev) := by
    rcases hlet with rfl | ⟨a, rfl, hla⟩
    · apply parseLetter_skip
      rcases hsufhead with he | ⟨ch, r2, he, hch⟩
      · exact Or.inl (by simp [letterChars, he])
      · refine Or.inr ⟨ch, r2, by simp [letterChars, he], ?_⟩
        rcases hch with rfl | rfl <;> decide
    · rw [show letterChars (some a) ++ (suffixChars st sn ++ revChars rev) =
          a :: (suffixChars st sn ++ revChars rev) by simp [letterChars]]
      exact parseLetter_some a hla _
  have hps := parseSufRev_complete st sn rev hinv
  rw [hstr]
  simp only [parseGentooList, hc, if_true]
  rw [hre]
  dsimp only
  rw [hpl]
  dsimp only
  rw [hps]

/-- Soundness and completeness of the whole Gentoo parser in one
round: every successfully parsed value re-parses from its own
serialization to itself. -/
theorem parseGentooList_round (l : List Char) (v : GentooVersion)
    (h : parseGentooList l = some v) : parseGentooList v.strList = some v := by
  cases l with
  | nil => simp [parseGentooList] at h
  | cons c rest =>
    simp only [parseGentooList] at h
    by_cases hc : isDigitCh c = true
    · rw [if_pos hc] at h
      obtain ⟨ds, segs2, r1, hseq, hds, hwf2⟩ :=
        segsAux_sound rest.length rest (Nat.le_refl _) [c]
      have hseq2 : segsAux [c] rest = ((c :: ds) :: segs2, r1) := by simpa using hseq
      rw [hseq2] at h
      dsimp only at h
      rcases parseLetter_sound r1 with hL | ⟨a, t2, rfl, hla, hL⟩
      · rw [hL] at h
        dsimp only at h
        cases hsr : parseSufRev r1 with
        | none => rw [hsr] at h; simp at h
        | some trip =>
          obtain ⟨st, sn, rev⟩ := trip
          rw [hsr] at h
          dsimp only at h
          injection h with h2
          subst h2
          exact parseGentooList_complete c hc ds hds segs2 hwf2 none (Or.inl rfl)
            st sn rev (parseSufRev_inv r1 st sn rev hsr)
      · rw [hL] at h
        dsimp only at h
        cases hsr : parseSufRev t2 with
        | none => rw [hsr] at h; simp at h
        | some trip =>
          obtain ⟨st, sn, rev⟩ := trip
          rw [hsr] at h
          dsimp only at h
          injection h with h2
          subst h2
          exact parseGentooList_complete c hc ds hds segs2 hwf2 (some a)
            (Or.inr ⟨a, rfl, hla⟩) st sn rev (parseSufRev_inv t2 st sn rev hsr)
    · rw [if_neg hc] at h
      simp at h

/-! ## Claims -/

/-- Claim C1, counterexample: the revision is not a tiebreaker of
`compare_versions` at all — `to_pep440` drops it, so
`compare_versions "1.2.3-r1" "1.2.3"` returns `0` (`Equal`), not `1`
(`Greater`) as the claim states. -/
theorem claim_C1_counterexample : compare_versions "1.2.3-r1" "1.2.3" = 0 := by decide

/-- Claim C1, amended: `to_pep440` does not render the revision, so
two strict-grammar versions that agree on base, letter, pre-release
tag and post tag compare `Equal` whatever their revisions, whenever
their common PEP 440 translation is parseable; the claim's second
example `compare("1.2.3-r1", "1.2.4") = Less` does hold. -/
theorem claim_C1_amended :
    (∀ (a b : String) (ga gb : GentooVersion),
        parse_gentoo_version a = some ga → parse_gentoo_version b = some gb →
        ga.base = gb.base → ga.letter = gb.letter →
        ga.suffix_type = gb.suffix_type → ga.suffix_num = gb.suffix_num →
        (parsePepStr ga.to_pep440).isSome →
        compare_versions a b = 0) ∧
    compare_versions "1.2.3-r1" "1.2.4" = -1 := by
  constructor
  · intro a b ga gb ha hb h1 h2 h3 h4 h5
    have hpep : ga.to_pep440 = gb.to_pep440 := by
      unfold GentooVersion.to_pep440 GentooVersion.pepList
      rw [h1, h2, h3, h4]
    unfold compare_versions
    rw [ha, hb]
    show cmpStage2 ga.to_pep440 gb.to_pep440 a b = 0
    rw [hpep] at h5 ⊢
    cases ho : parsePepStr gb.to_pep440 with
    | none => rw [ho] at h5; simp at h5
    | some v =>
      unfold cmpStage2
      rw [ho]
      show ordInt (keyCmp v v) = 0
      rw [keyCmp_refl]
      rfl
  · decide

/-- Claim C1, witness: two versions differing only in their revision
(`1.2.3-r1` versus `1.2.3-r2`) compare `Equal`. -/
theorem claim_C1_witness : compare_versions "1.2.3-r1" "1.2.3-r2" = 0 :=
  claim_C1_amended.1 "1.2.3-r1" "1.2.3-r2"
    ⟨"1.2.3".data, none, none, none, some 1⟩
    ⟨"1.2.3".data, none, none, none, some 2⟩
    (by decide) (by decide) rfl rfl rfl rfl (by decide)

/-- Claim C2, counterexample: a trailing letter is passed through to
PEP 440, where `1.2.3a` is the alpha pre-release `1.2.3a0`, so
`compare_versions "1.2.3a" "1.2.3"` returns `-1` (`Less`), not `1`
(`Greater`) as the claim states. -/
theorem claim_C2_counterexample : compare_versions "1.2.3a" "1.2.3" = -1 := by decide

/-- Claim C2, amended: the trailing letter is read by the PEP 440
layer as a pre-release marker, so a lettered version orders strictly
below its bare base, it coincides with (rather than sits below) the
matching tagged pre-release of ordinal 0, letters that both translate
compare alphabetically, and a letter with no PEP 440 reading (such as
`d`) drops the comparison to the lexicographic fallback, which orders
it above the base. -/
theorem claim_C2_amended :
    compare_versions "1.2.3a" "1.2.3" = -1 ∧
    compare_versions "1.2.3" "1.2.3a" = 1 ∧
    compare_versions "1.2.3a" "1.2.3_alpha" = 0 ∧
    compare_versions "1.2.3a" "1.2.3_alpha1" = -1 ∧
    compare_versions "1.2.3a" "1.2.3b" = -1 ∧
    compare_versions "1.2.3d" "1.2.3" = 1 := by
  refine ⟨by decide, by decide, by decide, by decide, by decide, by decide⟩

/-- Claim C3, counterexample: `to_pep440` sends `pre` to a PEP 440
`.dev` release, which ranks below `alpha`, so
`compare_versions "1.2.3_beta1" "1.2.3_pre1"` returns `1` (`Greater`),
not `-1` (`Less`) as the claim's fixed rank `beta < pre` states. -/
theorem claim_C3_counterexample : compare_versions "1.2.3_beta1" "1.2.3_pre1" = 1 := by
  decide

/-- Claim C3, amended: the tag rank realized by the code is
`pre < alpha < beta < rc < absent` (because `pre` maps to `.dev` and
the others to PEP 440 pre-releases); a plain release still ranks above
every tagged one. -/
theorem claim_C3_amended :
    compare_versions "1.2.3_pre1" "1.2.3_alpha1" = -1 ∧
    compare_versions "1.2.3_alpha1" "1.2.3_beta1" = -1 ∧
    compare_versions "1.2.3_beta1" "1.2.3_rc1" = -1 ∧
    compare_versions "1.2.3_rc1" "1.2.3" = -1 ∧
    compare_versions "1.2.3_pre" "1.2.3" = -1 ∧
    compare_versions "1.2.3_beta1" "1.2.3_pre1" = 1 := by
  refine ⟨by decide, by decide, by decide, by decide, by decide, by decide⟩

/-- Claim C4, counterexample: `1.0.post1` fails the strict Gentoo
grammar, yet `compare_versions "1.0.post1" "1.0.2"` returns `-1`
because both raw strings are retried as PEP 440 — plain lexicographic
comparison of the raw inputs would return `1`. -/
theorem claim_C4_counterexample :
    parse_gentoo_version "1.0.post1" = none ∧
    compare_versions "1.0.post1" "1.0.2" = -1 ∧
    pyStrCmp "1.0.post1" "1.0.2" = 1 := by
  refine ⟨by decide, by decide, by decide⟩

/-- Claim C4, amended: when either input fails the strict grammar the
code first retries PEP 440 parsing of the two raw inputs; only when
that also fails (on either side) does the comparison become plain
lexicographic string comparison of the raw inputs. -/
theorem claim_C4_amended :
    ∀ a b : String,
      (parse_gentoo_version a = none ∨ parse_gentoo_version b = none) →
      (parsePepStr a = none ∨ parsePepStr b = none) →
      compare_versions a b = pyStrCmp a b := by
  intro a b h1 h2
  unfold compare_versions
  cases ha : parse_gentoo_version a with
  | some ga =>
    cases hb : parse_gentoo_version b with
    | some gb => rw [ha, hb] at h1; rcases h1 with h | h <;> exact absurd h (by simp)
    | none => exact cmpStage2_fallback a b a b h2
  | none =>
    cases hb : parse_gentoo_version b <;> exact cmpStage2_fallback a b a b h2

/-- Claim C4, witness: for two unparseable strings the comparison is
the lexicographic one. -/
theorem claim_C4_witness : compare_versions "foo" "bar" = pyStrCmp "foo" "bar" :=
  claim_C4_amended "foo" "bar" (Or.inl (by decide)) (Or.inl (by decide))

/-- Claim C5, counterexample: `compare_versions` returns a bare
three-way integer with no accompanying indicator — a degraded
lexicographic-fallback comparison (`"abc"` versus `"abd"`, where
neither the Gentoo grammar nor PEP 440 parses) produces a value
identical to that of a fully structured comparison, so no caller can
observe that the fallback path was used. -/
theorem claim_C5_counterexample :
    parse_gentoo_version "abc" = none ∧
    parsePepStr "abc" = none ∧
    compare_versions "abc" "abd" = compare_versions "1.2.3" "1.2.4" := by
  refine ⟨by decide, by decide, by decide⟩

/-- Claim C5, amended: the result of `compare_versions` is only the
ordering integer; the degraded path is not observable in it — a
fallback comparison and a structured comparison can return the very
same value. -/
theorem claim_C5_amended :
    parse_gentoo_version "xy" = none ∧
    parsePepStr "xy" = none ∧
    compare_versions "xy" "xz" = -1 ∧
    (parse_gentoo_version "2.0").isSome ∧
    compare_versions "2.0" "2.1" = -1 := by
  refine ⟨by decide, by decide, by decide, by decide, by decide⟩

/-- Claim C6, counterexample: `1.2.3_p01` matches the strict grammar
but re-serializes to `1.2.3_p1` — the parsed ordinal keeps only the
numeric value, so the string-level round trip fails on ordinals
written with leading zeros. -/
theorem claim_C6_counterexample :
    (parse_gentoo_version "1.2.3_p01").map GentooVersion.str = some "1.2.3_p1" ∧
    ("1.2.3_p1" : String) ≠ "1.2.3_p01" := by
  refine ⟨by decide, by decide⟩

/-- Claim C6, amended: the round trip holds at the structured level —
re-parsing the re-serialization of any strictly parsed version yields
the same `GentooVersion` (string equality can only fail through the
canonical re-rendering of ordinal/revision digits). -/
theorem claim_C6_amended (s : String) (v : GentooVersion)
    (h : parse_gentoo_version s = some v) :
    parse_gentoo_version (GentooVersion.str v) = some v :=
  parseGentooList_round s.data v h

/-- Claim C6, witness: the round trip at a version exercising every
field. -/
theorem claim_C6_witness :
    parse_gentoo_version
        (GentooVersion.str ⟨"1.2.3".data, some 'a', some SuffixType.beta, some 2, some 3⟩) =
      some ⟨"1.2.3".data, some 'a', some SuffixType.beta, some 2, some 3⟩ :=
  claim_C6_amended "1.2.3a_beta2-r3" _ (by decide)

/-- Claim C7 (confirmed): `compare_versions` is antisymmetric —
swapping the arguments negates the result — and reflexive-equal:
`compare_versions a a = 0` for every string, parseable or not. -/
theorem claim_C7 :
    (∀ a b : String, compare_versions a b = -compare_versions b a) ∧
    (∀ a : String, compare_versions a a = 0) := by
  constructor
  · intro a b
    unfold compare_versions
    cases h1 : parse_gentoo_version a <;> cases h2 : parse_gentoo_version b <;>
      exact cmpStage2_swap _ _ _ _
  · intro a
    unfold compare_versions
    cases h : parse_gentoo_version a <;> exact cmpStage2_self _ _

/-- Claim C8 (confirmed): on every pair of input strings, including
malformed ones, `compare_versions` produces one of the three ordering
values `-1`, `0`, `1`; every failure of the two parsing stages is
caught and routed to the string-comparison fallback, never re-raised. -/
theorem claim_C8 :
    ∀ a b : String,
      compare_versions a b = -1 ∨ compare_versions a b = 0 ∨ compare_versions a b = 1 := by
  intro a b
  unfold compare_versions
  cases h1 : parse_gentoo_version a <;> cases h2 : parse_gentoo_version b <;>
    exact cmpStage2_mem _ _ _ _

/-- Claim C10 (confirmed): `normalize_gentoo_version` strips a single
leading `v` before the grammar check even with `lenient = False`, so
prefixing any strictly valid version with `v` normalizes back to the
valid version without an error. -/
theorem claim_C10 (s : String) (h : (parse_gentoo_version s).isSome) :
    normalize_gentoo_version ("v" ++ s) false = some s := by
  have hd : ("v" ++ s).data = 'v' :: s.data := rfl
  unfold normalize_gentoo_version
  rw [hd]
  unfold parse_gentoo_version at h
  simp [stripV, h]

/-- Claim C10, witness: `v1.2.3` normalizes to the strictly valid
`1.2.3` in strict mode. -/
theorem claim_C10_witness : normalize_gentoo_version ("v" ++ "1.2.3") false = some "1.2.3" :=
  claim_C10 "1.2.3" (by decide)

/-- Claim C9, counterexample: rewrite rules are applied with `re.sub`,
which replaces every non-overlapping occurrence: the rule
`("3", "4")` applied to tag `3.3` yields `4.4`, not the `4.3` that a
first-match-only application would produce. -/
theorem claim_C9_counterexample :
    upstream_to_gentoo "3.3" [("3", "4")] = "4.4" ∧
    upstream_to_gentoo "3.3" [("3", "4")] ≠ "4.3" := by
  refine ⟨by decide, by decide⟩

/-- Claim C9, amended: `upstream_to_gentoo` applies each
caller-supplied rewrite rule in order, each globally to all
non-overlapping occurrences of its pattern (Python `re.sub`
semantics), not only to the first match. -/
theorem claim_C9_amended :
    upstream_to_gentoo "1.1" [("1", "2")] = "2.2" ∧
    upstream_to_gentoo "1" [("1", "2"), ("2", "3")] = "3" := by
  refine ⟨by decide, by decide⟩

end OverlayTools
